import Mathlib

/-!
Verification of the RIM (Read-In Mode) paper-tape decoder implemented in
`tools/rim2hex.py`.  The decoder converts a PDP-1 RIM paper-tape byte
stream into a 4096-word memory image plus a program start address.

The embedding below follows the Python source function by function:
`extract_data_bytes`, `decode_18bit_words`, `simulate_rim_loading`
(the default `--simulate` path of `rim_to_hex`) and `generate_hex`.
The Python dict `memory` is modelled as an association list with
most-recent binding first, which reproduces dict `[]=` / `in` / `get`
behaviour exactly for the operations the decoder performs.
-/

namespace Rim2Hex

/-- Opcode constant `DIO_OPCODE = 0o32` from the source. -/
def DIO_OPCODE : Nat := 0o32

/-- Opcode constant `JMP_OPCODE = 0o60` from the source. -/
def JMP_OPCODE : Nat := 0o60

/-- `opcode = (word >> 12) & 0o77` as computed in `simulate_rim_loading`. -/
def opcodeOf (w : Nat) : Nat := (w >>> 12) &&& 0o77

/-- `address = word & 0o7777` as computed in `simulate_rim_loading`. -/
def addressOf (w : Nat) : Nat := w &&& 0o7777

/-- `extract_data_bytes`: keep the bytes with bit 7 set, stripped to their
low 6 bits, in order; bytes with bit 7 clear are dropped. -/
def extract_data_bytes : List Nat → List Nat
  | [] => []
  | b :: rest =>
      if b &&& 0x80 ≠ 0 then (b &&& 0x3F) :: extract_data_bytes rest
      else extract_data_bytes rest

/-- `decode_18bit_words`: assemble each group of three consecutive 6-bit
values into one 18-bit word `(p0 << 12) | (p1 << 6) | p2`; a trailing
group of fewer than three values is dropped. -/
def decode_18bit_words : List Nat → List Nat
  | p0 :: p1 :: p2 :: rest =>
      ((p0 <<< 12) ||| (p1 <<< 6) ||| p2) :: decode_18bit_words rest
  | _ => []

/-- `memory[address] = data` on a Python dict, modelled on an association
list with the newest binding first. -/
def memSet (m : List (Nat × Nat)) (a v : Nat) : List (Nat × Nat) := (a, v) :: m

/-- `memory.get(a)` (`None` when absent): first binding for `a` wins,
which is the newest one. -/
def memGet (m : List (Nat × Nat)) (a : Nat) : Option Nat :=
  (m.find? (fun p => p.1 == a)).map (fun p => p.2)

/-- `a in memory` on the modelled dict. -/
def memMem (m : List (Nat × Nat)) (a : Nat) : Bool :=
  m.any (fun p => p.1 == a)

/-- `words[i]` with an out-of-range default (the default is never used:
every access in `simAux` is guarded by a length test, as in the source). -/
def getw (l : List Nat) (i : Nat) : Nat := l.getD i 0

/-- One pass of the `while i < len(words)` loop of `simulate_rim_loading`,
written structurally over the list of words still to be processed
(`words[i:]`).  The first component of the state is `bootloader_active`,
then the memory dict and `start_address`.  Phase 1 (`bootloader_active`
false): a DIO word stores the following word at its address field and
consumes both; a JMP word sets `bootloader_active`; anything else is
skipped.  Phase 2: a DIO word stores as in phase 1 (guarded by
`address < 4096`); a JMP word records its address field as
`start_address`; any other word is treated as an implicit DIO — it
consumes two words and stores the second at the first's address field
when that second word is nonzero or the address is already present. -/
def simList : Bool → List Nat → List (Nat × Nat) → Nat → List (Nat × Nat) × Nat
  | _, [], mem, st => (mem, st)
  | false, w :: rest, mem, st =>
      if opcodeOf w = DIO_OPCODE then
        match rest with
        | [] => (mem, st)
        | d :: rest2 => simList false rest2 (memSet mem (addressOf w) d) st
      else if opcodeOf w = JMP_OPCODE then
        simList true rest mem st
      else
        simList false rest mem st
  | true, w :: rest, mem, st =>
      if opcodeOf w = DIO_OPCODE then
        match rest with
        | [] => (mem, st)
        | d :: rest2 =>
            simList true rest2
              (if addressOf w < 4096 then memSet mem (addressOf w) d else mem) st
      else if opcodeOf w = JMP_OPCODE then
        simList true rest mem (addressOf w)
      else
        match rest with
        | [] => (mem, st)
        | d :: rest2 =>
            if addressOf w < 4096 ∧ (d ≠ 0 ∨ memMem mem (addressOf w)) then
              simList true rest2 (memSet mem (addressOf w) d) st
            else
              simList true rest2 mem st

/-- The `while i < len(words)` loop of `simulate_rim_loading` verbatim:
index `i` into the full word list, with an explicit fuel bound on the
number of loop iterations (`none` = fuel exhausted, which we prove never
happens for sufficient fuel). -/
def simAux (words : List Nat) :
    Nat → Bool → List (Nat × Nat) → Nat → Nat → Option (List (Nat × Nat) × Nat)
  | 0, _, _, _, _ => none
  | fuel + 1, active, mem, st, i =>
      if i < words.length then
        let word := getw words i
        let opcode := opcodeOf word
        let address := addressOf word
        if active = false then
          if opcode = DIO_OPCODE then
            if i + 1 < words.length then
              simAux words fuel active (memSet mem address (getw words (i + 1))) st (i + 2)
            else
              simAux words fuel active mem st (i + 1)
          else if opcode = JMP_OPCODE then
            simAux words fuel true mem st (i + 1)
          else
            simAux words fuel active mem st (i + 1)
        else
          if opcode = DIO_OPCODE then
            if i + 1 < words.length then
              simAux words fuel active
                (if address < 4096 then memSet mem address (getw words (i + 1)) else mem)
                st (i + 2)
            else
              simAux words fuel active mem st (i + 1)
          else if opcode = JMP_OPCODE then
            simAux words fuel active mem address (i + 1)
          else
            if i + 1 < words.length ∧ address < 4096 then
              if getw words (i + 1) ≠ 0 ∨ memMem mem address then
                simAux words fuel active (memSet mem address (getw words (i + 1))) st (i + 2)
              else
                simAux words fuel active mem st (i + 2)
            else
              simAux words fuel active mem st (i + 2)
      else
        some (mem, st)

/-- `simulate_rim_loading`: run the loop from `i = 0` with
`bootloader_active = False`, empty memory and default start `0o100`.
Fuel `words.length + 1` is enough (proved below); the default of `getD`
is never used. -/
def simulate_rim_loading (words : List Nat) : List (Nat × Nat) × Nat :=
  (simAux words (words.length + 1) false [] 0o100 0).getD ([], 0o100)

/-- The pure core of `rim_to_hex` on the default `--simulate` path:
byte classification, word assembly, then bootstrap simulation. -/
def rimDecode (bs : List Nat) : List (Nat × Nat) × Nat :=
  simulate_rim_loading (decode_18bit_words (extract_data_bytes bs))

/-- One hexadecimal digit, uppercase, as produced by Python `"%X"`. -/
def hexDigit (n : Nat) : Char :=
  if n < 10 then Char.ofNat (48 + n) else Char.ofNat (55 + n)

/-- Digits of `n` in base 16, most significant first, accumulated into
`acc`; yields `acc` unchanged for `n = 0` (Python prints at least one
digit, handled in `pyFmt05X`). -/
def toHexAux (n : Nat) (acc : List Char) : List Char :=
  if h : n = 0 then acc else toHexAux (n / 16) (hexDigit (n % 16) :: acc)
termination_by n
decreasing_by exact Nat.div_lt_self (Nat.pos_of_ne_zero h) (by decide)

/-- Python `f"{value:05X}"`: uppercase hexadecimal digits of the value,
left padded with zeros to a minimum width of 5. -/
def pyFmt05X (v : Nat) : String :=
  let ds := if v = 0 then ['0'] else toHexAux v []
  String.mk (List.replicate (5 - ds.length) '0' ++ ds)

/-- `generate_hex`: one formatted line per address `0 ≤ addr < 4096`,
using `memory.get(addr, 0)`. -/
def generate_hex (memory : List (Nat × Nat)) : List String :=
  (List.range 4096).map (fun addr => pyFmt05X ((memGet memory addr).getD 0))

/-- The reference 5-digit encoding: exactly five uppercase hexadecimal
digits, most significant first. -/
def hex5 (v : Nat) : List Char :=
  [hexDigit (v / 65536 % 16), hexDigit (v / 4096 % 16), hexDigit (v / 256 % 16),
   hexDigit (v / 16 % 16), hexDigit (v % 16)]

/-- An uppercase hexadecimal digit character. -/
def isUpperHex (c : Char) : Bool :=
  (('0' ≤ c && c ≤ '9') || ('A' ≤ c && c ≤ 'F'))

/-- Spec-side encoder for the round-trip claims: one 18-bit word as three
data bytes (bit 7 set, 6 payload bits each, most significant first). -/
def encodeWord (w : Nat) : List Nat :=
  [128 + w / 4096 % 64, 128 + w / 64 % 64, 128 + w % 64]

/-- Spec-side encoder: a DIO instruction word with the given address field. -/
def dioWord (a : Nat) : Nat := 0o32 * 4096 + a

/-- Spec-side encoder: an (address, value) map as a standard paired
DIO/data block of data bytes. -/
def encodePairs (ps : List (Nat × Nat)) : List Nat :=
  ps.flatMap (fun p => encodeWord (dioWord p.1) ++ encodeWord p.2)

/-- The word list that `encodePairs` denotes: a DIO instruction word
followed by the data word, for each pair. -/
def pairWords (ps : List (Nat × Nat)) : List Nat :=
  ps.flatMap (fun p => [dioWord p.1, p.2])

/-! ### Basic arithmetic facts about the word fields -/

theorem opcodeOf_eq (w : Nat) : opcodeOf w = w / 4096 % 64 := by
  have h1 := Nat.shiftRight_eq_div_pow w 12
  have h2 := Nat.and_pow_two_sub_one_eq_mod (w >>> 12) 6
  norm_num at h1 h2
  simp [opcodeOf, h1] at h2 ⊢
  omega

theorem addressOf_eq (w : Nat) : addressOf w = w % 4096 := by
  have h := Nat.and_pow_two_sub_one_eq_mod w 12
  norm_num at h
  simpa [addressOf] using h

theorem addressOf_lt (w : Nat) : addressOf w < 4096 := by
  rw [addressOf_eq]; exact Nat.mod_lt _ (by norm_num)

theorem word_or_eq (p0 p1 p2 : Nat) (h1 : p1 < 64) (h2 : p2 < 64) :
    (p0 <<< 12) ||| (p1 <<< 6) ||| p2 = p0 * 4096 + p1 * 64 + p2 := by
  have e0 : p0 <<< 12 = 2 ^ 12 * p0 := by rw [Nat.shiftLeft_eq]; ring
  have e1 : p1 <<< 6 = p1 * 64 := by rw [Nat.shiftLeft_eq]
  have hA : 2 ^ 12 * p0 + p1 * 64 = 2 ^ 12 * p0 ||| p1 * 64 :=
    Nat.mul_add_lt_is_or (by omega) p0
  have hB : 2 ^ 12 * p0 + p1 * 64 = 2 ^ 6 * (64 * p0 + p1) := by ring
  have hC : 2 ^ 6 * (64 * p0 + p1) + p2 = 2 ^ 6 * (64 * p0 + p1) ||| p2 :=
    Nat.mul_add_lt_is_or (by omega) _
  rw [e0, e1, ← hA, hB, ← hC]
  ring

theorem extract_payload_lt (b : Nat) : b &&& 0x3F < 64 := by
  have h := Nat.and_pow_two_sub_one_eq_mod b 6
  norm_num at h
  omega

theorem word_lt (p0 p1 p2 : Nat) (h1 : p1 < 64) (h2 : p2 < 64) (h0 : p0 < 64) :
    (p0 <<< 12) ||| (p1 <<< 6) ||| p2 < 2 ^ 18 := by
  rw [word_or_eq p0 p1 p2 h1 h2]; omega

/-! ### The fueled loop computes exactly the structural recursion -/

theorem drop_cons_getD (l : List Nat) (i : Nat) (h : i < l.length) :
    l.drop i = getw l i :: l.drop (i + 1) := by
  rw [List.drop_eq_getElem_cons h]
  congr 1
  simp [getw, List.getD_eq_getElem?_getD, List.getElem?_eq_getElem h]

theorem drop_nil_of_le (l : List Nat) (i : Nat) (h : ¬ i < l.length) :
    l.drop i = [] :=
  List.drop_eq_nil_of_le (by omega)

theorem simAux_eq (words : List Nat) :
    ∀ fuel active mem st i, words.length - i < fuel →
      simAux words fuel active mem st i = some (simList active (words.drop i) mem st) := by
  intro fuel
  induction fuel with
  | zero => intro _ _ _ i h; omega
  | succ fuel ih =>
    intro active mem st i h
    by_cases hi : i < words.length
    · rw [drop_cons_getD words i hi]
      by_cases hi1 : i + 1 < words.length
      · rw [drop_cons_getD words (i + 1) hi1]
        cases active with
        | false =>
          by_cases hop : opcodeOf (getw words i) = 26
          · have step : simAux words (fuel + 1) false mem st i =
                simAux words fuel false
                  (memSet mem (addressOf (getw words i)) (getw words (i + 1))) st (i + 2) := by
              simp [simAux, DIO_OPCODE, JMP_OPCODE, hi, hop, hi1]
            rw [step, ih _ _ _ _ (by omega)]
            simp [simList, DIO_OPCODE, JMP_OPCODE, hop]
          · by_cases hjmp : opcodeOf (getw words i) = 48
            · have step : simAux words (fuel + 1) false mem st i =
                  simAux words fuel true mem st (i + 1) := by
                simp [simAux, DIO_OPCODE, JMP_OPCODE, hi, hop, hjmp]
              rw [step, ih _ _ _ _ (by omega), drop_cons_getD words (i + 1) hi1]
              simp [simList, DIO_OPCODE, JMP_OPCODE, hop, hjmp]
            · have step : simAux words (fuel + 1) false mem st i =
                  simAux words fuel false mem st (i + 1) := by
                simp [simAux, DIO_OPCODE, JMP_OPCODE, hi, hop, hjmp]
              rw [step, ih _ _ _ _ (by omega), drop_cons_getD words (i + 1) hi1]
              simp [simList, DIO_OPCODE, JMP_OPCODE, hop, hjmp]
        | true =>
          by_cases hop : opcodeOf (getw words i) = 26
          · have step : simAux words (fuel + 1) true mem st i =
                simAux words fuel true
                  (if addressOf (getw words i) < 4096 then
                    memSet mem (addressOf (getw words i)) (getw words (i + 1)) else mem)
                  st (i + 2) := by
              simp [simAux, DIO_OPCODE, JMP_OPCODE, hi, hop, hi1]
            rw [step, ih _ _ _ _ (by omega)]
            simp [simList, DIO_OPCODE, JMP_OPCODE, hop]
          · by_cases hjmp : opcodeOf (getw words i) = 48
            · have step : simAux words (fuel + 1) true mem st i =
                  simAux words fuel true mem (addressOf (getw words i)) (i + 1) := by
                simp [simAux, DIO_OPCODE, JMP_OPCODE, hi, hop, hjmp]
              rw [step, ih _ _ _ _ (by omega), drop_cons_getD words (i + 1) hi1]
              simp [simList, DIO_OPCODE, JMP_OPCODE, hop, hjmp]
            · by_cases haddr : addressOf (getw words i) < 4096
              · by_cases hdata : getw words (i + 1) ≠ 0 ∨ memMem mem (addressOf (getw words i)) = true
                · have step : simAux words (fuel + 1) true mem st i =
                      simAux words fuel true
                        (memSet mem (addressOf (getw words i)) (getw words (i + 1))) st (i + 2) := by
                    simp [simAux, DIO_OPCODE, JMP_OPCODE, hi, hop, hjmp, hi1, haddr, hdata]
                  rw [step, ih _ _ _ _ (by omega)]
                  simp [simList, DIO_OPCODE, JMP_OPCODE, hop, hjmp, haddr, hdata]
                · have step : simAux words (fuel + 1) true mem st i =
                      simAux words fuel true mem st (i + 2) := by
                    simp [simAux, DIO_OPCODE, JMP_OPCODE, hi, hop, hjmp, hi1, haddr, hdata]
                  rw [step, ih _ _ _ _ (by omega)]
                  simp [simList, DIO_OPCODE, JMP_OPCODE, hop, hjmp, haddr, hdata]
              · have step : simAux words (fuel + 1) true mem st i =
                    simAux words fuel true mem st (i + 2) := by
                  simp [simAux, DIO_OPCODE, JMP_OPCODE, hi, hop, hjmp, hi1, haddr]
                rw [step, ih _ _ _ _ (by omega)]
                simp [simList, DIO_OPCODE, JMP_OPCODE, hop, hjmp, haddr]
      · rw [drop_nil_of_le words (i + 1) hi1]
        cases active with
        | false =>
          by_cases hop : opcodeOf (getw words i) = 26
          · have step : simAux words (fuel + 1) false mem st i =
                simAux words fuel false mem st (i + 1) := by
              simp [simAux, DIO_OPCODE, JMP_OPCODE, hi, hop, hi1]
            rw [step, ih _ _ _ _ (by omega), drop_nil_of_le words (i + 1) hi1]
            simp [simList, DIO_OPCODE, JMP_OPCODE, hop]
          · by_cases hjmp : opcodeOf (getw words i) = 48
            · have step : simAux words (fuel + 1) false mem st i =
                  simAux words fuel true mem st (i + 1) := by
                simp [simAux, DIO_OPCODE, JMP_OPCODE, hi, hop, hjmp]
              rw [step, ih _ _ _ _ (by omega), drop_nil_of_le words (i + 1) hi1]
              simp [simList, DIO_OPCODE, JMP_OPCODE, hop, hjmp]
            · have step : simAux words (fuel + 1) false mem st i =
                  simAux words fuel false mem st (i + 1) := by
                simp [simAux, DIO_OPCODE, JMP_OPCODE, hi, hop, hjmp]
              rw [step, ih _ _ _ _ (by omega), drop_nil_of_le words (i + 1) hi1]
              simp [simList, DIO_OPCODE, JMP_OPCODE, hop, hjmp]
        | true =>
          by_cases hop : opcodeOf (getw words i) = 26
          · have step : simAux words (fuel + 1) true mem st i =
                simAux words fuel true mem st (i + 1) := by
              simp [simAux, DIO_OPCODE, JMP_OPCODE, hi, hop, hi1]
            rw [step, ih _ _ _ _ (by omega), drop_nil_of_le words (i + 1) hi1]
            simp [simList, DIO_OPCODE, JMP_OPCODE, hop]
          · by_cases hjmp : opcodeOf (getw words i) = 48
            · have step : simAux words (fuel + 1) true mem st i =
                  simAux words fuel true mem (addressOf (getw words i)) (i + 1) := by
                simp [simAux, DIO_OPCODE, JMP_OPCODE, hi, hop, hjmp]
              rw [step, ih _ _ _ _ (by omega), drop_nil_of_le words (i + 1) hi1]
              simp [simList, DIO_OPCODE, JMP_OPCODE, hop, hjmp]
            · have step : simAux words (fuel + 1) true mem st i =
                  simAux words fuel true mem st (i + 2) := by
                simp [simAux, DIO_OPCODE, JMP_OPCODE, hi, hop, hjmp, hi1]
              rw [step, ih _ _ _ _ (by omega), drop_nil_of_le words (i + 2) (by omega)]
              simp [simList, DIO_OPCODE, JMP_OPCODE, hop, hjmp]
    · rw [drop_nil_of_le words i hi]
      simp [simAux, simList, hi]


theorem simulate_rim_loading_eq (words : List Nat) :
    simulate_rim_loading words = simList false words [] 0o100 := by
  unfold simulate_rim_loading
  rw [simAux_eq words (words.length + 1) false [] 0o100 0 (by omega)]
  simp

theorem simList_false_dio (w d : Nat) (rest : List Nat) (mem : List (Nat × Nat)) (st : Nat)
    (hop : opcodeOf w = 26) :
    simList false (w :: d :: rest) mem st = simList false rest (memSet mem (addressOf w) d) st := by
  simp [simList, DIO_OPCODE, JMP_OPCODE, hop]

theorem simList_false_jmp (w : Nat) (rest : List Nat) (mem : List (Nat × Nat)) (st : Nat)
    (hop : opcodeOf w = 48) :
    simList false (w :: rest) mem st = simList true rest mem st := by
  cases rest <;> simp [simList, DIO_OPCODE, JMP_OPCODE, hop]

theorem simList_false_other (w : Nat) (rest : List Nat) (mem : List (Nat × Nat)) (st : Nat)
    (hop : opcodeOf w ≠ 26) (hjmp : opcodeOf w ≠ 48) :
    simList false (w :: rest) mem st = simList false rest mem st := by
  cases rest <;> simp [simList, DIO_OPCODE, JMP_OPCODE, hop, hjmp]

theorem simList_true_dio (w d : Nat) (rest : List Nat) (mem : List (Nat × Nat)) (st : Nat)
    (hop : opcodeOf w = 26) :
    simList true (w :: d :: rest) mem st = simList true rest (memSet mem (addressOf w) d) st := by
  simp [simList, DIO_OPCODE, JMP_OPCODE, hop, addressOf_lt w]

theorem simList_true_jmp (w : Nat) (rest : List Nat) (mem : List (Nat × Nat)) (st : Nat)
    (_hop : opcodeOf w ≠ 26) (hjmp : opcodeOf w = 48) :
    simList true (w :: rest) mem st = simList true rest mem (addressOf w) := by
  cases rest <;> simp [simList, DIO_OPCODE, JMP_OPCODE, hjmp]

theorem simList_true_other_write (w d : Nat) (rest : List Nat) (mem : List (Nat × Nat)) (st : Nat)
    (hop : opcodeOf w ≠ 26) (hjmp : opcodeOf w ≠ 48)
    (hd : d ≠ 0 ∨ memMem mem (addressOf w) = true) :
    simList true (w :: d :: rest) mem st = simList true rest (memSet mem (addressOf w) d) st := by
  simp [simList, DIO_OPCODE, JMP_OPCODE, hop, hjmp, addressOf_lt w, hd]

theorem simList_true_other_skip (w d : Nat) (rest : List Nat) (mem : List (Nat × Nat)) (st : Nat)
    (hop : opcodeOf w ≠ 26) (hjmp : opcodeOf w ≠ 48)
    (hd : ¬ (d ≠ 0 ∨ memMem mem (addressOf w) = true)) :
    simList true (w :: d :: rest) mem st = simList true rest mem st := by
  simp only [not_or, ne_eq, not_not] at hd
  simp [simList, DIO_OPCODE, JMP_OPCODE, hop, hjmp, addressOf_lt w, hd.1, hd.2]

theorem simList_single_dio_false (w : Nat) (mem : List (Nat × Nat)) (st : Nat)
    (hop : opcodeOf w = 26) :
    simList false [w] mem st = (mem, st) := by
  simp [simList, DIO_OPCODE, JMP_OPCODE, hop]

theorem simList_single_dio_true (w : Nat) (mem : List (Nat × Nat)) (st : Nat)
    (hop : opcodeOf w = 26) :
    simList true [w] mem st = (mem, st) := by
  simp [simList, DIO_OPCODE, JMP_OPCODE, hop]

theorem simList_single_other_true (w : Nat) (mem : List (Nat × Nat)) (st : Nat)
    (hop : opcodeOf w ≠ 26) (hjmp : opcodeOf w ≠ 48) :
    simList true [w] mem st = (mem, st) := by
  simp [simList, DIO_OPCODE, JMP_OPCODE, hop, hjmp]

/-- C1 counterexample: the claimed bulk-data-block rule does not exist.
For the 5-word block DIO 0o100, DIO 0o103, A = 1, B = 2, C = 3 the decoded
Memory Image is not the mapping 0o100 to A, 0o101 to B, 0o102 to C claimed
by the bulk rule. -/
theorem C1_counterexample :
    ((memGet (simulate_rim_loading [0o320100, 0o320103, 1, 2, 3]).1 0o100 = some 1 ∧
      memGet (simulate_rim_loading [0o320100, 0o320103, 1, 2, 3]).1 0o101 = some 2 ∧
      memGet (simulate_rim_loading [0o320100, 0o320103, 1, 2, 3]).1 0o102 = some 3) = False) :=
  eq_false (by decide)

/-- C1 amended: there is no bulk-data-block interpretation.  A word stream
starting with two DIO words is processed by the paired rule: the first DIO
word stores the second DIO word itself (0o320103) at address 0o100, and the
trailing words A, B, C — opcodes neither DIO (0o32) nor JMP (0o60) — are
skipped without writing.  Start address stays at the default 0o100. -/
theorem C1_amended (A B C : Nat)
    (hA1 : opcodeOf A ≠ 0o32) (hA2 : opcodeOf A ≠ 0o60)
    (hB1 : opcodeOf B ≠ 0o32) (hB2 : opcodeOf B ≠ 0o60)
    (hC1 : opcodeOf C ≠ 0o32) (hC2 : opcodeOf C ≠ 0o60) :
    simulate_rim_loading [0o320100, 0o320103, A, B, C] = ([(0o100, 0o320103)], 0o100) := by
  have h1 : opcodeOf 0o320100 = 26 := by decide
  have ha : addressOf 0o320100 = 64 := by decide
  rw [simulate_rim_loading_eq]
  simp [simList, DIO_OPCODE, JMP_OPCODE, h1, ha, hA1, hA2, hB1, hB2, hC1, hC2, memSet]

/-- C1 amended, witness at A = 1, B = 2, C = 3. -/
theorem C1_amended_witness :
    simulate_rim_loading [0o320100, 0o320103, 1, 2, 3] = ([(0o100, 0o320103)], 0o100) :=
  C1_amended 1 2 3 (by decide) (by decide) (by decide) (by decide) (by decide) (by decide)

/-- C2 counterexample: on the claimed input (DIO 0o200 word, data word
0o777000, a filler byte, then a lone JMP 0o200 word) the resolved start
address is not 0o200 — the first JMP only activates the bootloader phase
and its address is discarded. -/
theorem C2_counterexample :
    (((rimDecode [0x9A, 0x82, 0x80, 0xBF, 0xB8, 0x80, 0x00, 0xB0, 0x82, 0x80]).1 =
        [(0o200, 0o777000)] ∧
      (rimDecode [0x9A, 0x82, 0x80, 0xBF, 0xB8, 0x80, 0x00, 0xB0, 0x82, 0x80]).2 = 0o200) =
      False) :=
  eq_false (by decide)

/-- C2 amended: a word stream consisting of exactly one JMP word writes
nothing to memory and does not record a start address — the first JMP
switches on the bootloader phase and the result keeps the default 0o100.
On the concrete input the Memory Image is exactly the single binding
0o200 to 0o777000 and the start address is the default 0o100. -/
theorem C2_amended :
    (∀ w, opcodeOf w = JMP_OPCODE → simulate_rim_loading [w] = ([], 0o100)) ∧
    rimDecode [0x9A, 0x82, 0x80, 0xBF, 0xB8, 0x80, 0x00, 0xB0, 0x82, 0x80] =
      ([(0o200, 0o777000)], 0o100) := by
  constructor
  · intro w hw
    have hw' : opcodeOf w = 48 := hw
    have hno : opcodeOf w ≠ 26 := by rw [hw']; decide
    rw [simulate_rim_loading_eq]
    simp [simList, DIO_OPCODE, JMP_OPCODE, hw', hno]
  · decide

/-- C2 amended, witness: a lone JMP to 0o300. -/
theorem C2_amended_witness :
    simulate_rim_loading [0o600300] = ([], 0o100) :=
  C2_amended.1 0o600300 (by decide)

/-- C3 counterexample: the word stream consisting of the single word
JMP 0o300 resolves to the default start address 0o100, not to the address
field 0o300 of the last (and only) JMP word. -/
theorem C3_counterexample :
    (((simulate_rim_loading [0o600300]).2 = 0o300)) = False :=
  eq_false (by decide)

/-- C4 counterexample: in the word stream JMP 0, then 0o000100 (opcode 0),
then 5, the non-DIO/JMP word 0o000100 is processed after bootloader
activation and does cause a write — the Memory Image is not empty,
contradicting the claim that such words are skipped with no write. -/
theorem C4_counterexample :
    (((simulate_rim_loading [0o600000, 0o000100, 5]).1 = ([] : List (Nat × Nat)))) = False :=
  eq_false (by decide)

/-- C5 counterexample: deleting the two-data-byte run 0x9A, 0x81 (fewer
than 3 payload units before a filler byte) changes the decoded Memory
Image, so short runs are not invisible — payload units merge across
filler. -/
theorem C5_counterexample :
    (((rimDecode [0x9A, 0x81, 0x00, 0x80, 0x80, 0x80, 0x87]).1 =
      (rimDecode [0x00, 0x80, 0x80, 0x80, 0x87]).1)) = False :=
  eq_false (by decide)

theorem simList_start_no_jmp (active : Bool) (ws : List Nat) (mem : List (Nat × Nat)) (st : Nat)
    (h : ∀ w ∈ ws, opcodeOf w ≠ JMP_OPCODE) :
    (simList active ws mem st).2 = st := by
  induction active, ws, mem, st using simList.induct with
  | case1 => simp [simList]
  | case2 w mem st hop => rw [simList_single_dio_false w mem st hop]
  | case3 w mem st hop d rest2 ih =>
      rw [simList_false_dio w d rest2 mem st hop]
      exact ih (fun x hx => h x (by simp [hx]))
  | case4 w rest mem st hop hjmp ih =>
      exact absurd hjmp (h w (by simp))
  | case5 w rest mem st hop hjmp ih =>
      rw [simList_false_other w rest mem st hop hjmp]
      exact ih (fun x hx => h x (by simp [hx]))
  | case6 w mem st hop => rw [simList_single_dio_true w mem st hop]
  | case7 w mem st hop d rest2 ih =>
      rw [simList_true_dio w d rest2 mem st hop]
      rw [if_pos (addressOf_lt w)] at ih
      exact ih (fun x hx => h x (by simp [hx]))
  | case8 w rest mem st hop hjmp ih =>
      exact absurd hjmp (h w (by simp))
  | case9 w mem st hop hjmp => rw [simList_single_other_true w mem st hop hjmp]
  | case10 w mem st hop hjmp d rest2 hcond ih =>
      rw [simList_true_other_write w d rest2 mem st hop hjmp hcond.2]
      exact ih (fun x hx => h x (by simp [hx]))
  | case11 w mem st hop hjmp d rest2 hcond ih =>
      rw [simList_true_other_skip w d rest2 mem st hop hjmp (fun hd => hcond ⟨addressOf_lt w, hd⟩)]
      exact ih (fun x hx => h x (by simp [hx]))

theorem simList_start_shape (active : Bool) (ws : List Nat) (mem : List (Nat × Nat)) (st : Nat) :
    (simList active ws mem st).2 = st ∨
      ∃ w ∈ ws, opcodeOf w = JMP_OPCODE ∧ (simList active ws mem st).2 = addressOf w := by
  induction active, ws, mem, st using simList.induct with
  | case1 => simp [simList]
  | case2 w mem st hop => rw [simList_single_dio_false w mem st hop]; left; rfl
  | case3 w mem st hop d rest2 ih =>
      rw [simList_false_dio w d rest2 mem st hop]
      rcases ih with h1 | ⟨w', hw', h1, h2⟩
      · left; exact h1
      · right; exact ⟨w', by simp [hw'], h1, h2⟩
  | case4 w rest mem st hop hjmp ih =>
      rw [simList_false_jmp w rest mem st hjmp]
      rcases ih with h1 | ⟨w', hw', h1, h2⟩
      · left; exact h1
      · right; exact ⟨w', by simp [hw'], h1, h2⟩
  | case5 w rest mem st hop hjmp ih =>
      rw [simList_false_other w rest mem st hop hjmp]
      rcases ih with h1 | ⟨w', hw', h1, h2⟩
      · left; exact h1
      · right; exact ⟨w', by simp [hw'], h1, h2⟩
  | case6 w mem st hop => rw [simList_single_dio_true w mem st hop]; left; rfl
  | case7 w mem st hop d rest2 ih =>
      rw [simList_true_dio w d rest2 mem st hop]
      rw [if_pos (addressOf_lt w)] at ih
      rcases ih with h1 | ⟨w', hw', h1, h2⟩
      · left; exact h1
      · right; exact ⟨w', by simp [hw'], h1, h2⟩
  | case8 w rest mem st hop hjmp ih =>
      rw [simList_true_jmp w rest mem st hop hjmp]
      rcases ih with h1 | ⟨w', hw', h1, h2⟩
      · right; exact ⟨w, by simp, hjmp, h1⟩
      · right; exact ⟨w', by simp [hw'], h1, h2⟩
  | case9 w mem st hop hjmp => rw [simList_single_other_true w mem st hop hjmp]; left; rfl
  | case10 w mem st hop hjmp d rest2 hcond ih =>
      rw [simList_true_other_write w d rest2 mem st hop hjmp hcond.2]
      rcases ih with h1 | ⟨w', hw', h1, h2⟩
      · left; exact h1
      · right; exact ⟨w', by simp [hw'], h1, h2⟩
  | case11 w mem st hop hjmp d rest2 hcond ih =>
      rw [simList_true_other_skip w d rest2 mem st hop hjmp (fun hd => hcond ⟨addressOf_lt w, hd⟩)]
      rcases ih with h1 | ⟨w', hw', h1, h2⟩
      · left; exact h1
      · right; exact ⟨w', by simp [hw'], h1, h2⟩

/-- C3 amended: for every word stream, if no JMP word occurs the start
address is the default 0o100; and in general the resolved start address is
either 0o100 or the address field of some JMP word of the stream (the last
one processed in the bootloader phase) — but not necessarily of the last
JMP in the stream, since the first JMP only activates the bootloader and
later JMP words can be consumed as data. -/
theorem C3_amended (ws : List Nat) :
    ((∀ w ∈ ws, opcodeOf w ≠ JMP_OPCODE) → (simulate_rim_loading ws).2 = 0o100) ∧
    ((simulate_rim_loading ws).2 = 0o100 ∨
      ∃ w ∈ ws, opcodeOf w = JMP_OPCODE ∧ (simulate_rim_loading ws).2 = addressOf w) := by
  rw [simulate_rim_loading_eq]
  exact ⟨fun h => simList_start_no_jmp false ws [] 0o100 h, simList_start_shape false ws [] 0o100⟩

/-- C3 amended, witness: a JMP-free stream and a two-JMP stream. -/
theorem C3_amended_witness :
    (simulate_rim_loading [5]).2 = 0o100 ∧
    ((simulate_rim_loading [0o600000, 0o600300]).2 = 0o100 ∨
      ∃ w ∈ [0o600000, 0o600300], opcodeOf w = JMP_OPCODE ∧
        (simulate_rim_loading [0o600000, 0o600300]).2 = addressOf w) :=
  ⟨(C3_amended [5]).1 (by decide), (C3_amended [0o600000, 0o600300]).2⟩

/-- C4 amended: a word whose opcode is neither DIO nor JMP is skipped with
an advance of exactly 1 and no write only in phase 1 (bootloader not yet
active); in phase 2 the loop advances by 2 and writes the following word
to the current word's address field whenever a following word exists and
it is nonzero or the address is already mapped. -/
theorem C4_amended (ws : List Nat) (fuel i : Nat) (mem : List (Nat × Nat)) (st : Nat)
    (hi : i < ws.length)
    (hop : opcodeOf (getw ws i) ≠ 0o32) (hjmp : opcodeOf (getw ws i) ≠ 0o60) :
    (simAux ws (fuel + 1) false mem st i = simAux ws fuel false mem st (i + 1)) ∧
    (i + 1 < ws.length →
      (getw ws (i + 1) ≠ 0 ∨ memMem mem (addressOf (getw ws i)) = true) →
      simAux ws (fuel + 1) true mem st i =
        simAux ws fuel true (memSet mem (addressOf (getw ws i)) (getw ws (i + 1))) st (i + 2)) := by
  constructor
  · simp [simAux, DIO_OPCODE, JMP_OPCODE, hi, hop, hjmp]
  · intro hi1 hd
    simp [simAux, DIO_OPCODE, JMP_OPCODE, hi, hi1, hop, hjmp, addressOf_lt (getw ws i), hd]

/-- C4 amended, witness at the concrete stream 0o000100, 5. -/
theorem C4_amended_witness :
    (simAux [0o000100, 5] 4 false [] 0o100 0 = simAux [0o000100, 5] 3 false [] 0o100 1) ∧
    (0 + 1 < ([0o000100, 5] : List Nat).length →
      (getw [0o000100, 5] (0 + 1) ≠ 0 ∨ memMem [] (addressOf (getw [0o000100, 5] 0)) = true) →
      simAux [0o000100, 5] 4 true [] 0o100 0 =
        simAux [0o000100, 5] 3 true
          (memSet [] (addressOf (getw [0o000100, 5] 0)) (getw [0o000100, 5] (0 + 1))) 0o100 (0 + 2)) :=
  C4_amended [0o000100, 5] 3 0 [] 0o100 (by decide) (by decide) (by decide)

/-- C5 amended: filler bytes are not block separators — removing a filler
byte anywhere leaves the extracted payload stream unchanged, so payload
units group into words across filler runs; only a trailing group of fewer
than 3 payload units at the end of the whole stream is dropped by the word
assembler. -/
theorem C5_amended :
    (∀ (bs : List Nat) (c : Nat) (rest : List Nat), c &&& 0x80 = 0 →
      extract_data_bytes (bs ++ c :: rest) = extract_data_bytes (bs ++ rest)) ∧
    (∀ l r : List Nat, l.length % 3 = 0 → r.length < 3 →
      decode_18bit_words (l ++ r) = decode_18bit_words l) := by
  constructor
  · intro bs c rest hc
    induction bs with
    | nil => simp [extract_data_bytes, hc]
    | cons b t ih => by_cases hb : b &&& 0x80 ≠ 0 <;> simp [extract_data_bytes, hb, ih]
  · intro l r hl hr
    induction l using decode_18bit_words.induct with
    | case1 p0 p1 p2 rest ih =>
        simp only [List.cons_append, decode_18bit_words]
        congr 1
        exact ih (by simp only [List.length_cons] at hl; omega)
    | case2 t ht =>
        have hnil : t = [] := by
          rcases t with _ | ⟨a, _ | ⟨b, _ | ⟨c, u⟩⟩⟩
          · rfl
          · simp at hl
          · simp at hl
          · exact absurd rfl (ht a b c u)
        subst hnil
        rcases r with _ | ⟨a, _ | ⟨b, _ | ⟨c, u⟩⟩⟩
        · rfl
        · rfl
        · rfl
        · exfalso; simp at hr; omega

/-- C5 amended, witness on concrete byte lists. -/
theorem C5_amended_witness :
    (extract_data_bytes ([0x9A] ++ 0 :: [0x85]) = extract_data_bytes ([0x9A] ++ [0x85])) ∧
    (decode_18bit_words ([1, 2, 3] ++ [4]) = decode_18bit_words [1, 2, 3]) :=
  ⟨C5_amended.1 [0x9A] 0 [0x85] (by decide), C5_amended.2 [1, 2, 3] [4] (by decide) (by decide)⟩

theorem encodeByte_data (p : Nat) (hp : p < 64) :
    ((128 + p) &&& 0x80 ≠ 0) ∧ ((128 + p) &&& 0x3F = p) := by
  constructor
  · interval_cases p <;> decide
  · have h := Nat.and_pow_two_sub_one_eq_mod (128 + p) 6
    norm_num at h
    omega

theorem extract_encodeWord (w : Nat) (l : List Nat) :
    extract_data_bytes (encodeWord w ++ l) =
      (w / 4096 % 64) :: (w / 64 % 64) :: (w % 64) :: extract_data_bytes l := by
  have h0 := encodeByte_data (w / 4096 % 64) (by omega)
  have h1 := encodeByte_data (w / 64 % 64) (by omega)
  have h2 := encodeByte_data (w % 64) (by omega)
  simp [encodeWord, extract_data_bytes, h0.1, h0.2, h1.1, h1.2, h2.1, h2.2]

theorem decode_word_digits (w : Nat) (hw : w < 2 ^ 18) (ds : List Nat) :
    decode_18bit_words ((w / 4096 % 64) :: (w / 64 % 64) :: (w % 64) :: ds) =
      w :: decode_18bit_words ds := by
  rw [decode_18bit_words]
  congr 1
  rw [word_or_eq _ _ _ (by omega) (by omega)]
  omega

theorem decode_encodePairs (ps : List (Nat × Nat))
    (hb : ∀ p ∈ ps, p.1 < 4096 ∧ p.2 < 2 ^ 18) :
    decode_18bit_words (extract_data_bytes (encodePairs ps)) = pairWords ps := by
  induction ps with
  | nil => rfl
  | cons p t ih =>
      have hp := hb p (by simp)
      have hdio : dioWord p.1 < 2 ^ 18 := by unfold dioWord; omega
      have hshape : encodePairs (p :: t) =
          encodeWord (dioWord p.1) ++ (encodeWord p.2 ++ encodePairs t) := by
        simp [encodePairs]
      rw [hshape, extract_encodeWord, extract_encodeWord, decode_word_digits _ hdio,
        decode_word_digits _ hp.2, ih (fun q hq => hb q (by simp [hq]))]
      rfl

theorem simList_pairWords (ps : List (Nat × Nat)) (mem : List (Nat × Nat)) (st : Nat)
    (hb : ∀ p ∈ ps, p.1 < 4096) :
    simList false (pairWords ps) mem st =
      (ps.foldl (fun m p => memSet m p.1 p.2) mem, st) := by
  induction ps generalizing mem with
  | nil => simp [pairWords, simList]
  | cons p t ih =>
      have hp := hb p (by simp)
      have hop : opcodeOf (dioWord p.1) = 26 := by rw [opcodeOf_eq]; unfold dioWord; omega
      have had : addressOf (dioWord p.1) = p.1 := by rw [addressOf_eq]; unfold dioWord; omega
      have hshape : pairWords (p :: t) = dioWord p.1 :: p.2 :: pairWords t := by
        simp [pairWords]
      rw [hshape, simList_false_dio _ _ _ _ _ hop, had,
        ih _ (fun q hq => hb q (by simp [hq]))]
      simp [List.foldl]

theorem foldl_memSet (ps : List (Nat × Nat)) (m : List (Nat × Nat)) :
    ps.foldl (fun m p => memSet m p.1 p.2) m = ps.reverse ++ m := by
  induction ps generalizing m with
  | nil => simp
  | cons p t ih => simp [List.foldl, memSet, ih]

theorem memGet_reverse (ps : List (Nat × Nat)) (a : Nat)
    (hnd : (ps.map Prod.fst).Nodup) :
    memGet ps.reverse a = (ps.find? (fun p => p.1 == a)).map (fun p => p.2) := by
  induction ps with
  | nil => rfl
  | cons p t ih =>
      have hnd' : (t.map Prod.fst).Nodup := (List.nodup_cons.mp hnd).2
      have hpnotin : p.1 ∉ t.map Prod.fst := (List.nodup_cons.mp hnd).1
      simp only [List.reverse_cons]
      unfold memGet
      rw [List.find?_append]
      cases hfind : t.find? (fun q => q.1 == a) with
      | some q =>
          have hq1 : q.1 = a := by
            have := List.find?_some hfind
            simpa using this
          have hqmem : q ∈ t := List.mem_of_find?_eq_some hfind
          have hne : ¬ (p.1 == a) = true := by
            simp only [beq_iff_eq]
            intro hpa
            exact hpnotin (hpa ▸ hq1 ▸ List.mem_map_of_mem Prod.fst hqmem)
          have hsome := ih hnd'
          unfold memGet at hsome
          rw [hfind] at hsome
          rcases Option.map_eq_some'.mp hsome with ⟨x, hx1, hx2⟩
          rw [hx1]
          simp [List.find?, hne, hfind, hx2]
      | none =>
          have hnone := ih hnd'
          unfold memGet at hnone
          rw [hfind] at hnone
          have : t.reverse.find? (fun q => q.1 == a) = none := by
            cases hcase : t.reverse.find? (fun q => q.1 == a) with
            | none => rfl
            | some x => rw [hcase] at hnone; simp at hnone
          rw [this]
          by_cases hpa : (p.1 == a) = true
          · simp [List.find?, hpa, hfind]
          · simp [List.find?, hpa, hfind]

/-- C6: round-trip for the standard paired layout.  Encoding a finite
mapping with distinct 12-bit addresses and 18-bit values as consecutive
DIO-word/data-word pairs of data bytes and decoding it reproduces exactly
the original mapping. -/
theorem C6_roundtrip (ps : List (Nat × Nat))
    (hnd : (ps.map Prod.fst).Nodup)
    (hb : ∀ p ∈ ps, p.1 < 4096 ∧ p.2 < 2 ^ 18) :
    ∀ a, memGet (rimDecode (encodePairs ps)).1 a =
      (ps.find? (fun p => p.1 == a)).map (fun p => p.2) := by
  intro a
  unfold rimDecode
  rw [decode_encodePairs ps hb, simulate_rim_loading_eq,
    simList_pairWords ps [] 0o100 (fun p hp => (hb p hp).1)]
  simp only
  rw [foldl_memSet]
  simp only [List.append_nil]
  exact memGet_reverse ps a hnd

/-- C6 witness at a concrete two-pair mapping. -/
theorem C6_roundtrip_witness :
    memGet (rimDecode (encodePairs [(0o200, 7), (0o300, 9)])).1 0o300 = some 9 := by
  have h := C6_roundtrip [(0o200, 7), (0o300, 9)] (by decide) (by decide) 0o300
  rw [h]
  decide

theorem extract_all_lt (bs : List Nat) : ∀ p ∈ extract_data_bytes bs, p < 64 := by
  induction bs with
  | nil => simp [extract_data_bytes]
  | cons b t ih =>
      by_cases hb : b &&& 0x80 ≠ 0
      · simp only [extract_data_bytes, if_pos hb]
        intro p hp
        rcases List.mem_cons.mp hp with h | h
        · subst h; exact extract_payload_lt b
        · exact ih p h
      · simpa [extract_data_bytes, hb] using ih

theorem decode_all_lt (l : List Nat) (hl : ∀ p ∈ l, p < 64) :
    ∀ w ∈ decode_18bit_words l, w < 2 ^ 18 := by
  induction l using decode_18bit_words.induct with
  | case1 p0 p1 p2 rest ih =>
      simp only [decode_18bit_words]
      intro w hw
      rcases List.mem_cons.mp hw with h | h
      · subst h
        exact word_lt p0 p1 p2 (hl p1 (by simp)) (hl p2 (by simp)) (hl p0 (by simp))
      · exact ih (fun x hx => hl x (by simp [hx])) w h
  | case2 t ht =>
      intro w hw
      rcases t with _ | ⟨a, _ | ⟨b, _ | ⟨c, u⟩⟩⟩
      · simp [decode_18bit_words] at hw
      · simp [decode_18bit_words] at hw
      · simp [decode_18bit_words] at hw
      · exact absurd rfl (ht a b c u)

theorem memSet_bound (mem : List (Nat × Nat)) (w d : Nat)
    (hmem : ∀ q ∈ mem, q.1 < 4096 ∧ q.2 < 2 ^ 18) (hd : d < 2 ^ 18) :
    ∀ q ∈ memSet mem (addressOf w) d, q.1 < 4096 ∧ q.2 < 2 ^ 18 := by
  intro q hq
  rcases List.mem_cons.mp hq with h | h
  · subst h; exact ⟨addressOf_lt w, hd⟩
  · exact hmem q h

theorem simList_mem_bound (active : Bool) (ws : List Nat) (mem : List (Nat × Nat)) (st : Nat)
    (hws : ∀ w ∈ ws, w < 2 ^ 18) (hmem : ∀ q ∈ mem, q.1 < 4096 ∧ q.2 < 2 ^ 18) :
    ∀ q ∈ (simList active ws mem st).1, q.1 < 4096 ∧ q.2 < 2 ^ 18 := by
  induction active, ws, mem, st using simList.induct with
  | case1 => simp only [simList]; exact hmem
  | case2 w mem st hop => rw [simList_single_dio_false w mem st hop]; exact hmem
  | case3 w mem st hop d rest2 ih =>
      rw [simList_false_dio w d rest2 mem st hop]
      exact ih (fun x hx => hws x (by simp [hx]))
        (memSet_bound mem w d hmem (hws d (by simp)))
  | case4 w rest mem st hop hjmp ih =>
      rw [simList_false_jmp w rest mem st hjmp]
      exact ih (fun x hx => hws x (by simp [hx])) hmem
  | case5 w rest mem st hop hjmp ih =>
      rw [simList_false_other w rest mem st hop hjmp]
      exact ih (fun x hx => hws x (by simp [hx])) hmem
  | case6 w mem st hop => rw [simList_single_dio_true w mem st hop]; exact hmem
  | case7 w mem st hop d rest2 ih =>
      rw [simList_true_dio w d rest2 mem st hop]
      rw [if_pos (addressOf_lt w)] at ih
      exact ih (fun x hx => hws x (by simp [hx]))
        (memSet_bound mem w d hmem (hws d (by simp)))
  | case8 w rest mem st hop hjmp ih =>
      rw [simList_true_jmp w rest mem st hop hjmp]
      exact ih (fun x hx => hws x (by simp [hx])) hmem
  | case9 w mem st hop hjmp => rw [simList_single_other_true w mem st hop hjmp]; exact hmem
  | case10 w mem st hop hjmp d rest2 hcond ih =>
      rw [simList_true_other_write w d rest2 mem st hop hjmp hcond.2]
      exact ih (fun x hx => hws x (by simp [hx]))
        (memSet_bound mem w d hmem (hws d (by simp)))
  | case11 w mem st hop hjmp d rest2 hcond ih =>
      rw [simList_true_other_skip w d rest2 mem st hop hjmp
        (fun hd => hcond ⟨addressOf_lt w, hd⟩)]
      exact ih (fun x hx => hws x (by simp [hx])) hmem

theorem rimDecode_bound (bs : List Nat) :
    ∀ q ∈ (rimDecode bs).1, q.1 < 4096 ∧ q.2 < 2 ^ 18 := by
  unfold rimDecode
  rw [simulate_rim_loading_eq]
  exact simList_mem_bound false (decode_18bit_words (extract_data_bytes bs)) [] 0o100
    (decode_all_lt _ (extract_all_lt bs)) (by simp)

/-- C7: for every input byte sequence, every key of the decoded Memory
Image is in [0, 4095] and every stored value is in [0, 0x3FFFF]. -/
theorem C7_invariant (bs : List Nat) :
    ∀ p ∈ (rimDecode bs).1, p.1 ≤ 4095 ∧ p.2 ≤ 0x3FFFF := by
  intro p hp
  have h := rimDecode_bound bs p hp
  omega

/-- C7 witness at a concrete decoded binding. -/
theorem C7_invariant_witness :
    (0o200, (0o777000 : Nat)).1 ≤ 4095 ∧ (0o200, (0o777000 : Nat)).2 ≤ 0x3FFFF :=
  C7_invariant [0x9A, 0x82, 0x80, 0xBF, 0xB8, 0x80] (0o200, 0o777000) (by decide)

theorem toHexAux_ne (n : Nat) (acc : List Char) (h : n ≠ 0) :
    toHexAux n acc = toHexAux (n / 16) (hexDigit (n % 16) :: acc) := by
  rw [toHexAux]
  simp [h]

theorem toHexAux_zero (acc : List Char) : toHexAux 0 acc = acc := by
  rw [toHexAux]
  simp

theorem hexDigit_zero : hexDigit 0 = '0' := rfl

theorem pyFmt05X_eq_hex5 (v : Nat) (hv : v < 16 ^ 5) :
    pyFmt05X v = String.mk (hex5 v) := by
  have hv' : v < 1048576 := by omega
  by_cases h0 : v = 0
  · subst h0; rfl
  by_cases hA : v < 16
  · unfold pyFmt05X
    rw [if_neg h0, toHexAux_ne v [] h0]
    have e1 : v / 16 = 0 := by omega
    rw [e1, toHexAux_zero]
    have z3 : v / 65536 % 16 = 0 := by omega
    have z2 : v / 4096 % 16 = 0 := by omega
    have z1 : v / 256 % 16 = 0 := by omega
    have z0 : v / 16 % 16 = 0 := by omega
    simp [hex5, z3, z2, z1, z0, hexDigit_zero, List.replicate]
  by_cases hB : v < 256
  · unfold pyFmt05X
    rw [if_neg h0, toHexAux_ne v [] h0, toHexAux_ne (v / 16) _ (by omega)]
    have e2 : v / 16 / 16 = 0 := by omega
    rw [e2, toHexAux_zero]
    have z3 : v / 65536 % 16 = 0 := by omega
    have z2 : v / 4096 % 16 = 0 := by omega
    have z1 : v / 256 % 16 = 0 := by omega
    simp [hex5, z3, z2, z1, hexDigit_zero, List.replicate]
  by_cases hC : v < 4096
  · unfold pyFmt05X
    rw [if_neg h0, toHexAux_ne v [] h0, toHexAux_ne (v / 16) _ (by omega)]
    have e2 : v / 16 / 16 = v / 256 := by omega
    rw [e2, toHexAux_ne (v / 256) _ (by omega)]
    have e3 : v / 256 / 16 = 0 := by omega
    rw [e3, toHexAux_zero]
    have z3 : v / 65536 % 16 = 0 := by omega
    have z2 : v / 4096 % 16 = 0 := by omega
    simp [hex5, z3, z2, hexDigit_zero, List.replicate]
  by_cases hD : v < 65536
  · unfold pyFmt05X
    rw [if_neg h0, toHexAux_ne v [] h0, toHexAux_ne (v / 16) _ (by omega)]
    have e2 : v / 16 / 16 = v / 256 := by omega
    rw [e2, toHexAux_ne (v / 256) _ (by omega)]
    have e3 : v / 256 / 16 = v / 4096 := by omega
    rw [e3, toHexAux_ne (v / 4096) _ (by omega)]
    have e4 : v / 4096 / 16 = 0 := by omega
    rw [e4, toHexAux_zero]
    have z3 : v / 65536 % 16 = 0 := by omega
    simp [hex5, z3, hexDigit_zero, List.replicate]
  · unfold pyFmt05X
    rw [if_neg h0, toHexAux_ne v [] h0, toHexAux_ne (v / 16) _ (by omega)]
    have e2 : v / 16 / 16 = v / 256 := by omega
    rw [e2, toHexAux_ne (v / 256) _ (by omega)]
    have e3 : v / 256 / 16 = v / 4096 := by omega
    rw [e3, toHexAux_ne (v / 4096) _ (by omega)]
    have e4 : v / 4096 / 16 = v / 65536 := by omega
    rw [e4, toHexAux_ne (v / 65536) _ (by omega)]
    have e5 : v / 65536 / 16 = 0 := by omega
    rw [e5, toHexAux_zero]
    simp [hex5, List.replicate]

theorem memGetD_bound (bs : List Nat) (a : Nat) :
    (memGet (rimDecode bs).1 a).getD 0 < 16 ^ 5 := by
  cases h : memGet (rimDecode bs).1 a with
  | none => simp
  | some v =>
      unfold memGet at h
      rcases Option.map_eq_some'.mp h with ⟨q, hq1, hq2⟩
      have hmem := List.mem_of_find?_eq_some hq1
      have := rimDecode_bound bs q hmem
      simp only [Option.getD_some]
      omega

theorem isUpperHex_hexDigit (d : Nat) (hd : d < 16) : isUpperHex (hexDigit d) = true := by
  interval_cases d <;> decide

/-- C8: for every decoded Memory Image the textual output has exactly 4096
lines; line i is the 5-character zero-padded uppercase hexadecimal encoding
of the value mapped at address i (00000 when unmapped), and every line
consists of exactly 5 uppercase hexadecimal digit characters. -/
theorem C8_output (bs : List Nat) :
    (generate_hex (rimDecode bs).1).length = 4096 ∧
    (∀ i, i < 4096 →
      (generate_hex (rimDecode bs).1).getD i "" =
        String.mk (hex5 ((memGet (rimDecode bs).1 i).getD 0))) ∧
    (∀ s ∈ generate_hex (rimDecode bs).1,
      s.length = 5 ∧ ∀ c ∈ s.data, isUpperHex c = true) := by
  refine ⟨by simp [generate_hex], ?_, ?_⟩
  · intro i hi
    have : (generate_hex (rimDecode bs).1).getD i "" =
        pyFmt05X ((memGet (rimDecode bs).1 i).getD 0) := by
      simp [generate_hex, List.getD_eq_getElem?_getD, List.getElem?_map,
        List.getElem?_range, hi]
    rw [this]
    exact pyFmt05X_eq_hex5 _ (memGetD_bound bs i)
  · intro s hs
    rcases List.mem_map.mp hs with ⟨a, ha, rfl⟩
    rw [pyFmt05X_eq_hex5 _ (memGetD_bound bs a)]
    constructor
    · rfl
    · intro c hc
      have hc' : c ∈ hex5 ((memGet (rimDecode bs).1 a).getD 0) := hc
      simp only [hex5, List.mem_cons, List.not_mem_nil, or_false] at hc'
      rcases hc' with h | h | h | h | h <;>
        (subst h; exact isUpperHex_hexDigit _ (Nat.mod_lt _ (by norm_num)))

/-- C8 witness: the empty input. -/
theorem C8_output_witness :
    ((generate_hex (rimDecode []).1).getD 0 "" =
      String.mk (hex5 ((memGet (rimDecode []).1 0).getD 0))) ∧
    (pyFmt05X ((memGet (rimDecode []).1 0).getD 0)).length = 5 ∧
    isUpperHex '0' = true :=
  ⟨(C8_output []).2.1 0 (by decide),
   ((C8_output []).2.2 (pyFmt05X ((memGet (rimDecode []).1 0).getD 0))
      (List.mem_map_of_mem (fun addr => pyFmt05X ((memGet (rimDecode []).1 addr).getD 0))
        (show (0 : Nat) ∈ List.range 4096 by simp))).1,
   ((C8_output []).2.2 (pyFmt05X ((memGet (rimDecode []).1 0).getD 0))
      (List.mem_map_of_mem (fun addr => pyFmt05X ((memGet (rimDecode []).1 addr).getD 0))
        (show (0 : Nat) ∈ List.range 4096 by simp))).2 '0' (by decide)⟩

/-- C9: the decode core is total — for every finite input byte sequence
the byte-classification / word-assembly / loop pipeline terminates within
the fuel bound and returns a Memory Image and start address (the fuel
exhaustion branch is unreachable). -/
theorem C9_total (bs : List Nat) :
    simAux (decode_18bit_words (extract_data_bytes bs))
        ((decode_18bit_words (extract_data_bytes bs)).length + 1) false [] 0o100 0 =
      some (rimDecode bs) := by
  rw [simAux_eq _ _ _ _ _ _ (by omega)]
  unfold rimDecode
  rw [simulate_rim_loading_eq]
  simp

theorem extract_eq_filter (bs : List Nat) :
    extract_data_bytes bs =
      (bs.filter (fun b => b &&& 0x80 != 0)).map (fun b => b &&& 0x3F) := by
  induction bs with
  | nil => rfl
  | cons b t ih =>
      by_cases hb : b &&& 0x80 ≠ 0 <;>
        simp [extract_data_bytes, List.filter_cons, hb, ih]

/-- C10: the decode result depends only on the subsequence of input bytes
with bit 7 set — inserting or deleting filler bytes (bit 7 clear) anywhere
leaves the Memory Image and start address unchanged. -/
theorem C10_filler_invariance (bs1 bs2 : List Nat)
    (h : bs1.filter (fun b => b &&& 0x80 != 0) = bs2.filter (fun b => b &&& 0x80 != 0)) :
    rimDecode bs1 = rimDecode bs2 := by
  unfold rimDecode
  rw [extract_eq_filter, extract_eq_filter, h]

/-- C10 witness: a filler byte before and a filler byte after the single
data byte 0x9A do not change the decode. -/
theorem C10_witness : rimDecode [0x00, 0x9A, 0x01] = rimDecode [0x9A] :=
  C10_filler_invariance [0x00, 0x9A, 0x01] [0x9A] (by decide)

end Rim2Hex
